import Mathlib

/-!
Verification development for the PlexPlaylistReorder repository
(single source file `app/main.py`).

The development shallowly embeds the algorithmic core of the program:

* `normalize_text` / `normalize_key` — the text normalizer;
* `decode_uploaded_bytes` and `parse_apple_playlist_text` — the import
  parsing pipeline (encoding-attempt chain, delimiter sniffing, a
  csv.DictReader model, and the plain-line fallback);
* `build_reorder_plan` — the reconciliation matcher;
* `reorderOps` — the move-operation emission loop of the reorder route;
* `srvStep` / `srvRun` — the process-wide cache state touched by the
  HTTP routes (`UPLOAD_CACHE`, `OAUTH_CACHE`).

Python standard-library primitives used by the source (`unicodedata`
tables, `str.lower`, `str.strip`, `re`'s whitespace class, text codecs,
and the `csv` module's default dialect) are modelled as executable Lean
functions that are faithful to the documented stdlib behaviour on the
finite character subset the development exercises; characters outside
the modelled subset are treated as decomposition-free, case-stable and
non-spacing, which matches the stdlib on all characters appearing in the
theorems below.
-/

namespace PlexReorder

/-! ## Character-level model of the Python stdlib primitives -/

/-- The whitespace class shared by Python's `str.strip` and `re`'s `\s`
on `str` patterns: ASCII whitespace, the C1/format separators, and the
Unicode space characters. -/
def wsList : List Char :=
  [' ', '\t', '\n', '\x0b', '\x0c', '\r', '\x1c', '\x1d', '\x1e', '\x1f', '\x85', '\u00a0', '\u1680', '\u2000', '\u2001', '\u2002', '\u2003', '\u2004', '\u2005', '\u2006', '\u2007', '\u2008', '\u2009', '\u200a', '\u2028', '\u2029', '\u202f', '\u205f', '\u3000']

/-- Whitespace test (model of `str.strip` / `\s` membership). -/
def ws (c : Char) : Bool := wsList.contains c

/-- Model of `unicodedata.combining ch != 0`: the combining diacritical
marks block U+0300–U+036F (the only combining characters produced by the
decomposition table below). -/
def combining (c : Char) : Bool :=
  decide (0x300 ≤ c.toNat ∧ c.toNat ≤ 0x36F)

/-- Model of `str.lower` (simple case mapping): ASCII `A`–`Z` and the
Latin-1 uppercase range `À`–`Þ` (division sign `×` excluded), exactly as
in the Unicode simple lowercase table.  Characters outside the table are
case-stable. -/
def lowerTable : List (Char × Char) :=
  [('A', 'a'), ('B', 'b'), ('C', 'c'), ('D', 'd'), ('E', 'e'), ('F', 'f'),
   ('G', 'g'), ('H', 'h'), ('I', 'i'), ('J', 'j'), ('K', 'k'), ('L', 'l'),
   ('M', 'm'), ('N', 'n'), ('O', 'o'), ('P', 'p'), ('Q', 'q'), ('R', 'r'),
   ('S', 's'), ('T', 't'), ('U', 'u'), ('V', 'v'), ('W', 'w'), ('X', 'x'),
   ('Y', 'y'), ('Z', 'z'),
   ('À', 'à'), ('Á', 'á'), ('Â', 'â'),
   ('Ã', 'ã'), ('Ä', 'ä'), ('Å', 'å'),
   ('Æ', 'æ'), ('Ç', 'ç'), ('È', 'è'),
   ('É', 'é'), ('Ê', 'ê'), ('Ë', 'ë'),
   ('Ì', 'ì'), ('Í', 'í'), ('Î', 'î'),
   ('Ï', 'ï'), ('Ð', 'ð'), ('Ñ', 'ñ'),
   ('Ò', 'ò'), ('Ó', 'ó'), ('Ô', 'ô'),
   ('Õ', 'õ'), ('Ö', 'ö'), ('Ø', 'ø'),
   ('Ù', 'ù'), ('Ú', 'ú'), ('Û', 'û'),
   ('Ü', 'ü'), ('Ý', 'ý'), ('Þ', 'þ')]

/-- Character-wise `str.lower`. -/
def pyLower (c : Char) : Char := (List.lookup c lowerTable).getD c

/-- Compatibility decomposition table (model of the per-character effect
of `unicodedata.normalize("NFKD", ·)` on the modelled subset): the
canonical decompositions of `É`/`é` plus the compatibility decompositions
of `²` (superscript two) and `ﬁ` (the `fi` ligature).  Characters not in
the table decompose to themselves. -/
def nfkdTable : List (Char × List Char) :=
  [('É', ['E', '\u0301']), ('é', ['e', '\u0301']),
   ('\u00b2', ['2']), ('\ufb01', ['f', 'i'])]

/-- Character-wise NFKD decomposition. -/
def nfkd (c : Char) : List Char := (List.lookup c nfkdTable).getD [c]

/-- Canonical decomposition table (model of the per-character effect of
`unicodedata.normalize("NFD", ·)`): only the canonical decompositions;
the compatibility-only mappings of `²` and `ﬁ` are absent. -/
def nfdTable : List (Char × List Char) :=
  [('É', ['E', '\u0301']), ('é', ['e', '\u0301'])]

/-- Character-wise canonical (NFD) decomposition. -/
def nfd (c : Char) : List Char := (List.lookup c nfdTable).getD [c]

/-! ## Whitespace utilities: `str.strip` and `re.sub(r"\s+", " ", ·)` -/

/-- Model of `str.strip()`: drop leading and trailing whitespace. -/
def pyStrip (l : List Char) : List Char :=
  ((l.dropWhile ws).reverse.dropWhile ws).reverse

/-- Model of `str.strip` on strings. -/
def pyStripS (s : String) : String := String.mk (pyStrip s.data)

/-- Model of `re.sub(r"\s+", " ", ·)`: every maximal run of whitespace
becomes a single space.  The Boolean argument records whether the
previous character was part of a whitespace run already rewritten. -/
def collapseGo : Bool → List Char → List Char
  | _, [] => []
  | true, c :: cs =>
      if ws c then collapseGo true cs else c :: collapseGo false cs
  | false, c :: cs =>
      if ws c then ' ' :: collapseGo true cs else c :: collapseGo false cs

/-! ## The text normalizer (`normalize_text`, main.py lines 37–44) -/

/-- Embedding of `normalize_text`: NFKD-decompose, drop combining marks,
lower-case, strip, collapse whitespace runs. -/
def normalize_text (s : String) : String :=
  if s.data.isEmpty then "" else
    String.mk (collapseGo false (pyStrip
      (((s.data.flatMap nfkd).filter (fun c => !combining c)).map pyLower)))

/-- Embedding of `normalize_key` (main.py lines 47–48). -/
def normalize_key (title artist : String) : String × String :=
  (normalize_text title, normalize_text artist)

/-! ## The spec's reference normalizer (spec §4.1), for claim C7

The spec words the algorithm as: (1) empty input gives empty output;
(2) decompose into base characters plus combining marks, *canonically*;
(3) drop combining marks; (4) lower-case; (5) trim; (6) collapse runs of
whitespace to one space.  `specTrim`/`specCollapse` spell out the
trim/collapse steps from the spec's words. -/

/-- Spec step (5): trim leading and trailing whitespace. -/
def specTrim (l : List Char) : List Char :=
  ((l.dropWhile ws).reverse.dropWhile ws).reverse

/-- Spec step (6): collapse every maximal whitespace run to one space,
written as direct run-consuming recursion. -/
def specCollapse : List Char → List Char
  | [] => []
  | c :: cs =>
      if ws c then ' ' :: specCollapse (cs.dropWhile ws)
      else c :: specCollapse cs
  termination_by l => l.length
  decreasing_by
    · simpa using Nat.lt_succ_of_le (List.dropWhile_sublist ws (l := cs)).length_le
    · simp

/-- The spec's reference normalizer as written (canonical decomposition). -/
def normalizeSpecCanonical (s : String) : String :=
  if s.data.isEmpty then "" else
    String.mk (specCollapse (specTrim
      (((s.data.flatMap nfd).filter (fun c => !combining c)).map pyLower)))

/-- The spec's reference normalizer with step (2) amended to use the
compatibility (NFKD) decomposition actually performed by the code. -/
def normalizeSpecCompat (s : String) : String :=
  if s.data.isEmpty then "" else
    String.mk (specCollapse (specTrim
      (((s.data.flatMap nfkd).filter (fun c => !combining c)).map pyLower)))

end PlexReorder

namespace PlexReorder

/-! ## Track records (the parser's output dictionaries) -/

/-- A parsed track: the `{"title": ..., "artist": ...}` dictionaries the
parser emits (spec's TrackRecord). -/
structure TrackRecord where
  title : String
  artist : String
deriving DecidableEq, Repr

/-! ## Byte decoding (`decode_uploaded_bytes`, main.py lines 51–58)

The code tries, in order, `utf-16`, `utf-8-sig`, `utf-8`, `latin-1`, and
on total failure decodes as UTF-8 with replacement characters.  Each
codec is modelled as an `Option`-returning decoder on byte lists; a
`none` models the `UnicodeDecodeError` the code catches. -/

/-- Pair up bytes into UTF-16 code units (little- or big-endian);
`none` models the truncated-data error on odd-length input. -/
def utf16Units (be : Bool) : List Nat → Option (List Nat)
  | [] => some []
  | [_] => none
  | a :: b :: rest =>
      (utf16Units be rest).map (fun us =>
        (if be then 256 * a + b else a + 256 * b) :: us)

/-- Combine UTF-16 code units, pairing surrogates; `none` models the
unpaired-surrogate decode error. -/
def utf16Combine : List Nat → Option (List Char)
  | [] => some []
  | u :: us =>
      if 0xD800 ≤ u ∧ u ≤ 0xDBFF then
        match us with
        | [] => none
        | v :: vs =>
            if 0xDC00 ≤ v ∧ v ≤ 0xDFFF then
              (utf16Combine vs).map (fun cs =>
                Char.ofNat (0x10000 + (u - 0xD800) * 0x400 + (v - 0xDC00)) :: cs)
            else none
      else if 0xDC00 ≤ u ∧ u ≤ 0xDFFF then none
      else (utf16Combine us).map (fun cs => Char.ofNat u :: cs)

/-- Model of `bytes.decode("utf-16")`: honour a BOM, default to
little-endian without one. -/
def utf16Decode (bs : List Nat) : Option (List Char) :=
  match bs with
  | 0xFF :: 0xFE :: rest => (utf16Units false rest).bind utf16Combine
  | 0xFE :: 0xFF :: rest => (utf16Units true rest).bind utf16Combine
  | _ => (utf16Units false bs).bind utf16Combine

/-- Is `b` a UTF-8 continuation byte? -/
def utf8Cont (b : Nat) : Bool := decide (0x80 ≤ b ∧ b < 0xC0)

/-- Model of strict `bytes.decode("utf-8")`, rejecting overlong forms,
surrogates and out-of-range sequences as CPython does. -/
def utf8Decode : List Nat → Option (List Char)
  | [] => some []
  | b :: bs =>
      if b < 0x80 then (utf8Decode bs).map (fun cs => Char.ofNat b :: cs)
      else if b < 0xC2 then none
      else if b < 0xE0 then
        match bs with
        | c :: cs =>
            if utf8Cont c then
              (utf8Decode cs).map (fun r =>
                Char.ofNat ((b - 0xC0) * 64 + (c - 0x80)) :: r)
            else none
        | _ => none
      else if b < 0xF0 then
        match bs with
        | c :: d :: cs =>
            if (if b = 0xE0 then decide (0xA0 ≤ c ∧ c < 0xC0)
                else if b = 0xED then decide (0x80 ≤ c ∧ c < 0xA0)
                else utf8Cont c) && utf8Cont d then
              (utf8Decode cs).map (fun r =>
                Char.ofNat ((b - 0xE0) * 4096 + (c - 0x80) * 64 + (d - 0x80)) :: r)
            else none
        | _ => none
      else if b < 0xF5 then
        match bs with
        | c :: d :: e :: cs =>
            if (if b = 0xF0 then decide (0x90 ≤ c ∧ c < 0xC0)
                else if b = 0xF4 then decide (0x80 ≤ c ∧ c < 0x90)
                else utf8Cont c) && utf8Cont d && utf8Cont e then
              (utf8Decode cs).map (fun r =>
                Char.ofNat ((b - 0xF0) * 262144 + (c - 0x80) * 4096 +
                  (d - 0x80) * 64 + (e - 0x80)) :: r)
            else none
        | _ => none
      else none

/-- Model of `bytes.decode("utf-8-sig")`: strip a UTF-8 BOM if present. -/
def utf8SigDecode (bs : List Nat) : Option (List Char) :=
  match bs with
  | 0xEF :: 0xBB :: 0xBF :: rest => utf8Decode rest
  | _ => utf8Decode bs

/-- Model of `bytes.decode("latin-1")`: every byte maps to the code
point of its value; this codec never fails. -/
def latin1Decode (bs : List Nat) : Option (List Char) :=
  some (bs.map Char.ofNat)

/-- Model of `bytes.decode("utf-8", errors="replace")`: like strict
UTF-8 but a malformed byte is consumed and replaced by U+FFFD. -/
def utf8Replace : List Nat → List Char
  | [] => []
  | b :: bs =>
      if b < 0x80 then Char.ofNat b :: utf8Replace bs
      else
        match utf8Decode (b :: bs) with
        | some _ =>
            -- a fully valid tail: reuse the strict decoding of it
            (utf8Decode (b :: bs)).getD []
        | none => '\ufffd' :: utf8Replace bs

/-- The four-codec attempt chain of `decode_uploaded_bytes`. -/
def decodeChain (bs : List Nat) : Option (List Char) :=
  (((utf16Decode bs).orElse (fun _ => utf8SigDecode bs)).orElse
      (fun _ => utf8Decode bs)).orElse (fun _ => latin1Decode bs)

/-- Embedding of `decode_uploaded_bytes` on byte sequences. -/
def decode_uploaded_bytes (raw : List (Fin 256)) : String :=
  String.mk ((decodeChain (raw.map Fin.val)).getD (utf8Replace (raw.map Fin.val)))

end PlexReorder

namespace PlexReorder

/-! ## Python `str.splitlines` (used at main.py line 62) -/

/-- Line-boundary characters of `str.splitlines` other than `\r`
(which is handled together with `\r\n`). -/
def lineBreakList : List Char :=
  ['\n', '\x0b', '\x0c', '\x1c', '\x1d', '\x1e', '\x85', '\u2028', '\u2029']

/-- Worker for `splitlines`: accumulate the current line. -/
def splitlinesGo (cur : List Char) : List Char → List (List Char)
  | [] => if cur.isEmpty then [] else [cur.reverse]
  | '\r' :: '\n' :: rest => cur.reverse :: splitlinesGo [] rest
  | '\r' :: rest => cur.reverse :: splitlinesGo [] rest
  | c :: rest =>
      if lineBreakList.contains c then cur.reverse :: splitlinesGo [] rest
      else splitlinesGo (c :: cur) rest

/-- Model of `str.splitlines()` (without keepends). -/
def pySplitlines (s : String) : List String :=
  (splitlinesGo [] s.data).map String.mk

/-- Model of `str.split(sep, 1)` restricted to what the code uses: find
the first occurrence of `sep`, returning the parts before and after it;
`none` models `sep not in s`. -/
def pySplitOnce (sep : List Char) : List Char → Option (List Char × List Char)
  | [] => if sep.isPrefixOf [] then some ([], ([] : List Char).drop sep.length) else none
  | c :: cs =>
      if sep.isPrefixOf (c :: cs) then some ([], (c :: cs).drop sep.length)
      else (pySplitOnce sep cs).map (fun p => (c :: p.1, p.2))

/-! ## The csv module model (default dialect)

`csv.reader` over `io.StringIO(raw_text, newline="")` with the sniffed
delimiter: fields split on the delimiter, records split on `\r\n`,
`\r` or `\n`; `"`-quoted fields may contain delimiters, quotes are
doubled inside quoted fields, and (non-strict mode) stray characters
after a closing quote are appended to the field.  A blank line yields
the empty record `[]`.

CPython's reader additionally raises `_csv.Error` ("field larger than
field limit") as soon as a field exceeds `csv.field_size_limit()`
(default 131072 characters).  In this model the state machine `csvGo`
emits the rows and the limit is enforced on them by `rowOverLimit`
below: fields only ever grow, every field — including the partial field
at end-of-data — appears in an emitted row, and the machine has no
other failure mode, so checking the emitted rows is observationally
equivalent to raising mid-parse.  Because the program consumes the
reader lazily, `parse_apple_playlist_text_checked` applies the check
exactly where the program reads: to the header row at the `fieldnames`
access and to the data rows at the row loop. -/

/-- csv state machine states. -/
inductive CsvSt
  | startRecord
  | startField
  | inField
  | inQuoted
  | quoteInQuoted
deriving DecidableEq, Repr

/-- One record is finished: append the pending field and emit. -/
def csvEmit (fields : List String) (cur : List Char) : List String :=
  fields ++ [String.mk cur]

/-- The csv reader state machine over the whole text. -/
def csvGo (delim : Char) (st : CsvSt) (cur : List Char) (fields : List String)
    (acc : List (List String)) : List Char → List (List String)
  | [] =>
      match st with
      | .startRecord => acc
      | _ => acc ++ [csvEmit fields cur]
  | '\r' :: '\n' :: rest =>
      match st with
      | .startRecord => csvGo delim .startRecord [] [] (acc ++ [[]]) rest
      | .inQuoted => csvGo delim .inQuoted (cur ++ ['\r', '\n']) fields acc rest
      | _ => csvGo delim .startRecord [] [] (acc ++ [csvEmit fields cur]) rest
  | '\r' :: rest =>
      match st with
      | .startRecord => csvGo delim .startRecord [] [] (acc ++ [[]]) rest
      | .inQuoted => csvGo delim .inQuoted (cur ++ ['\r']) fields acc rest
      | _ => csvGo delim .startRecord [] [] (acc ++ [csvEmit fields cur]) rest
  | '\n' :: rest =>
      match st with
      | .startRecord => csvGo delim .startRecord [] [] (acc ++ [[]]) rest
      | .inQuoted => csvGo delim .inQuoted (cur ++ ['\n']) fields acc rest
      | _ => csvGo delim .startRecord [] [] (acc ++ [csvEmit fields cur]) rest
  | c :: rest =>
      match st with
      | .startRecord =>
          if c = '"' then csvGo delim .inQuoted [] [] acc rest
          else if c = delim then csvGo delim .startField [] [""] acc rest
          else csvGo delim .inField [c] [] acc rest
      | .startField =>
          if c = '"' then csvGo delim .inQuoted cur fields acc rest
          else if c = delim then csvGo delim .startField [] (fields ++ [""]) acc rest
          else csvGo delim .inField (cur ++ [c]) fields acc rest
      | .inField =>
          if c = delim then csvGo delim .startField [] (csvEmit fields cur) acc rest
          else csvGo delim .inField (cur ++ [c]) fields acc rest
      | .inQuoted =>
          if c = '"' then csvGo delim .quoteInQuoted cur fields acc rest
          else csvGo delim .inQuoted (cur ++ [c]) fields acc rest
      | .quoteInQuoted =>
          if c = '"' then csvGo delim .inQuoted (cur ++ ['"']) fields acc rest
          else if c = delim then csvGo delim .startField [] (csvEmit fields cur) acc rest
          else csvGo delim .inField (cur ++ [c]) fields acc rest

/-- All records `csv.reader` yields for the text (the field-size-limit
error path over these rows is `rowOverLimit`, applied by
`parse_apple_playlist_text_checked` where the program reads them). -/
def csvRows (delim : Char) (s : String) : List (List String) :=
  csvGo delim .startRecord [] [] [] s.data

/-! ## `csv.DictReader` row access -/

/-- Row access: `DictReader` builds `dict(zip(fieldnames, row))`, assigns `restval`
(`None`) to field names beyond the row's length (overwriting zipped
values for duplicated names), and `row.get(f)` returns the value for
the *last* positional occurrence of `f`.  `none` models `None`. -/
def dictRowGet (fns row : List String) (f : String) : Option String :=
  if (fns.drop row.length).contains f then none
  else ((fns.zip row).filter (fun p => p.1 = f)).getLast?.map (fun p => p.2)

/-- Header-name normalization of main.py line 81:
`normalize_text((name or "").replace("\ufeff", "").strip())`. -/
def headerNorm (name : String) : String :=
  normalize_text (pyStripS (String.mk (name.data.filter (fun c => c ≠ '\ufeff'))))

/-- The `field(*candidates)` helper (main.py lines 85–90): the first
candidate whose normalized form is a key of `normalized_fields` wins,
and the dict maps each normalized form to the *last* original header
name producing it. -/
def resolveField (fns : List String) : List String → Option String
  | [] => none
  | cand :: rest =>
      match (fns.filter (fun n => headerNorm n = normalize_text cand)).getLast? with
      | some n => some n
      | none => resolveField fns rest

/-- Row extraction for one data row (main.py lines 100–103): `none`
when the trimmed title is empty (the row is skipped). -/
def tabularRow (fns : List String) (titleField : String)
    (artistField : Option String) (row : List String) : Option TrackRecord :=
  let title := pyStripS ((dictRowGet fns row titleField).getD "")
  let artist :=
    match artistField with
    | some af => if af = "" then "" else pyStripS ((dictRowGet fns row af).getD "")
    | none => ""
  if title = "" then none else some ⟨title, artist⟩

/-- Plain-line fallback for one line (main.py lines 107–115). -/
def fallbackLine (line : String) : Option TrackRecord :=
  let clean := pyStrip line.data
  if clean.isEmpty then none
  else
    match pySplitOnce [' ', '-', ' '] clean with
    | some (a, t) => some ⟨String.mk (pyStrip t), String.mk (pyStrip a)⟩
    | none => some ⟨String.mk clean, ""⟩

/-- Embedding of `parse_apple_playlist_text` (main.py lines 61–117). -/
def parse_apple_playlist_text (raw_text : String) : List TrackRecord :=
  let lines := (pySplitlines raw_text).filter (fun l => !(pyStrip l.data).isEmpty)
  match lines with
  | [] => []
  | first_line :: _ =>
      let delimiter : Char :=
        if first_line.data.contains '\t' then '\t'
        else if first_line.data.contains ';' then ';'
        else ','
      match csvRows delimiter raw_text with
      | [] => []
      | fns :: dataRows =>
          if fns.isEmpty then []
          else
            match resolveField fns ["name", "title", "track name", "nome", "titolo"] with
            | none => []
            | some titleField =>
                if titleField = "" then []
                else
                  let artistField := resolveField fns ["artist", "artist name", "artista"]
                  let parsed := (dataRows.filter (fun r => !r.isEmpty)).filterMap
                    (tabularRow fns titleField artistField)
                  if parsed.isEmpty then lines.filterMap fallbackLine
                  else parsed

end PlexReorder

namespace PlexReorder

/-! ## Remote playlist items and the reconciliation matcher
(`build_reorder_plan`, main.py lines 144–209) -/

/-- A playlist item as consumed from `playlist.items()`: the attributes
the code reads.  `ratingKey` identifies the underlying catalog entry,
`playlistItemID` the position slot. -/
structure PlexItem where
  title : String
  grandparentTitle : String
  originalTitle : String
  ratingKey : Nat
  playlistItemID : Nat
deriving DecidableEq, Repr

/-- The artist string the code derives (main.py lines 160, 204):
`grandparentTitle or originalTitle or ""`. -/
def artistOf (it : PlexItem) : String :=
  if it.grandparentTitle ≠ "" then it.grandparentTitle
  else if it.originalTitle ≠ "" then it.originalTitle
  else ""

/-- Model of `dict.setdefault(key, []).append(item)`: append to the bucket of
`key`, creating the bucket at the end on first use. -/
def bucketsInsert {κ : Type} [DecidableEq κ] (k : κ) (it : PlexItem) :
    List (κ × List PlexItem) → List (κ × List PlexItem)
  | [] => [(k, [it])]
  | (k', l) :: rest =>
      if k' = k then (k', l ++ [it]) :: rest else (k', l) :: bucketsInsert k it rest

/-- The index-building loop of main.py lines 158–164, for one key
function. -/
def buildIndex {κ : Type} [DecidableEq κ] (keyf : PlexItem → κ)
    (items : List PlexItem) : List (κ × List PlexItem) :=
  items.foldl (fun acc it => bucketsInsert (keyf it) it acc) []

/-- Model of `dict.get(key, [])` on a bucket index. -/
def indexGet {κ : Type} [DecidableEq κ] :
    List (κ × List PlexItem) → κ → List PlexItem
  | [], _ => []
  | (k', l) :: rest, k => if k' = k then l else indexGet rest k

/-- The exact (title, artist) index `by_title_artist`. -/
def exactIndexOf (items : List PlexItem) : List ((String × String) × List PlexItem) :=
  buildIndex (fun it => normalize_key it.title (artistOf it)) items

/-- The loose title-only index `by_title`. -/
def titleIndexOf (items : List PlexItem) : List (String × List PlexItem) :=
  buildIndex (fun it => normalize_text it.title) items

/-- The loop state of main.py lines 166–168: consumed rating keys,
selected items, missing imported records. -/
structure RecoState where
  used : List Nat
  selected : List PlexItem
  missing : List TrackRecord
deriving DecidableEq, Repr

/-- Test `cand.ratingKey not in used_rating_keys`. -/
def notUsed (used : List Nat) (c : PlexItem) : Bool :=
  !used.contains c.ratingKey

/-- One iteration of the matching loop (main.py lines 170–192): first
unconsumed candidate of the exact bucket, else of the title-only
bucket, else the record is missing. -/
def recoStep (byTA : List ((String × String) × List PlexItem))
    (byT : List (String × List PlexItem)) (st : RecoState)
    (track : TrackRecord) : RecoState :=
  let exactBucket := indexGet byTA (normalize_key track.title track.artist)
  match exactBucket.find? (notUsed st.used) with
  | some c =>
      { st with used := c.ratingKey :: st.used, selected := st.selected ++ [c] }
  | none =>
      match (indexGet byT (normalize_text track.title)).find? (notUsed st.used) with
      | some c =>
          { st with used := c.ratingKey :: st.used, selected := st.selected ++ [c] }
      | none => { st with missing := st.missing ++ [track] }

/-- The final loop state for a full imported sequence. -/
def recoFold (items : List PlexItem) (imported : List TrackRecord) : RecoState :=
  imported.foldl (recoStep (exactIndexOf items) (titleIndexOf items)) ⟨[], [], []⟩

/-- The reconciliation plan dictionary returned by `build_reorder_plan`;
`matchCount` models the `"matches"` entry (`matches` is a reserved word
in Lean). -/
structure Plan where
  matchCount : Nat
  missing_in_plex : List TrackRecord
  new_order_ids : List Nat
  new_order_titles : List TrackRecord
  current_count : Nat
deriving DecidableEq, Repr

/-- Embedding of `build_reorder_plan`. -/
def build_reorder_plan (items : List PlexItem) (imported : List TrackRecord) : Plan :=
  if items.isEmpty then
    { matchCount := 0, missing_in_plex := imported, new_order_ids := [],
      new_order_titles := [], current_count := 0 }
  else
    let st := recoFold items imported
    let trailing := items.filter (fun it => !st.used.contains it.ratingKey)
    let desired := st.selected ++ trailing
    { matchCount := st.selected.length
      missing_in_plex := st.missing
      new_order_ids := desired.map (fun it => it.playlistItemID)
      new_order_titles := desired.map (fun it => ⟨it.title, artistOf it⟩)
      current_count := items.length }

/-! ## The reorder applicator (`reorder` route, main.py lines 404–415) -/

/-- The move primitives the loop issues: `playlist.moveItem(item)`
(move to head) and `playlist.moveItem(item, after=previous)`. -/
inductive MoveOp
  | moveToHead (item : PlexItem)
  | moveAfter (item previous : PlexItem)
deriving DecidableEq, Repr

/-- The live item map `{item.playlistItemID: item for item in
playlist.items()}`; a duplicated id keeps the later item, as a dict
comprehension does. -/
def liveMapGet (items : List PlexItem) (pid : Nat) : Option PlexItem :=
  items.reverse.find? (fun it => it.playlistItemID = pid)

/-- The applicator loop: thread the `previous` cursor, skip identifiers
absent from the live map, emit one move per resolved identifier. -/
def reorderGo (items : List PlexItem) (previous : Option PlexItem) :
    List Nat → List MoveOp
  | [] => []
  | pid :: rest =>
      match liveMapGet items pid with
      | none => reorderGo items previous rest
      | some it =>
          (match previous with
           | none => MoveOp.moveToHead it
           | some p => MoveOp.moveAfter it p) :: reorderGo items (some it) rest

/-- The full move sequence the reorder route issues for `new_order_ids`. -/
def reorderOps (items : List PlexItem) (orderedIds : List Nat) : List MoveOp :=
  reorderGo items none orderedIds

/-- Spec-shaped characterization (§4.4): after the first resolved item,
each later resolved item is moved after its predecessor. -/
def specOpsFrom (p : PlexItem) : List PlexItem → List MoveOp
  | [] => []
  | x :: xs => MoveOp.moveAfter x p :: specOpsFrom x xs

/-- Spec-shaped characterization (§4.4): the first resolved item goes to
the head, the rest follow their predecessors. -/
def specOps : List PlexItem → List MoveOp
  | [] => []
  | x :: xs => MoveOp.moveToHead x :: specOpsFrom x xs

/-! ## Process-wide cache state (`UPLOAD_CACHE`, `OAUTH_CACHE`)

main.py line 26 declares `UPLOAD_CACHE` as a plain dict; line 327 is its
only write; lines 342/388 are its reads.  `OAUTH_CACHE` has a TTL
(`OAUTH_SESSION_TTL_SEC`, line 28) enforced by `cleanup_oauth_sessions`
(lines 120–127), which the OAuth routes call. -/

/-- Constant `OAUTH_SESSION_TTL_SEC = 10 * 60`. -/
def OAUTH_SESSION_TTL_SEC : Nat := 10 * 60

/-- Dictionary assignment `d[k] = v`. -/
def dictSet {β : Type} : List (String × β) → String → β → List (String × β)
  | [], k, v => [(k, v)]
  | (k', v') :: rest, k, v =>
      if k' = k then (k, v) :: rest else (k', v') :: dictSet rest k v

/-- Dictionary lookup `d.get(k)` / `k in d`. -/
def dictGet {β : Type} : List (String × β) → String → Option β
  | [], _ => none
  | (k', v') :: rest, k => if k' = k then some v' else dictGet rest k

/-- The mutable process state the routes touch: the upload cache, the
OAuth session cache (session id to `created_at`), and the clock. -/
structure Srv where
  uploads : List (String × List TrackRecord)
  oauthSessions : List (String × Nat)
  now : Nat
deriving DecidableEq, Repr

/-- Model of `cleanup_oauth_sessions` (main.py lines 120–127): drop OAuth
sessions older than the TTL.  It never touches `UPLOAD_CACHE`. -/
def cleanupOauth (s : Srv) : Srv :=
  { s with oauthSessions :=
      s.oauthSessions.filter (fun p => !decide (s.now - p.2 > OAUTH_SESSION_TTL_SEC)) }

/-- The cache-relevant effect of each request the app serves (plus the
passage of time). -/
inductive SrvOp
  | tick (n : Nat)
  | upload (id : String) (tracks : List TrackRecord)
  | authStart (sid : String)
  | authStatusSuccess (sid : String)
  | authStatusPending (sid : String)
  | preview (id : String)
  | reorderReq (id : String)
deriving DecidableEq, Repr

/-- State transition of one request: `upload` writes `UPLOAD_CACHE`
(line 327); the OAuth routes run `cleanup_oauth_sessions` and mutate
only `OAUTH_CACHE`; `preview`/`reorder` only read. -/
def srvStep (s : Srv) : SrvOp → Srv
  | .tick n => { s with now := s.now + n }
  | .upload id tracks => { s with uploads := dictSet s.uploads id tracks }
  | .authStart sid =>
      let s' := cleanupOauth s
      { s' with oauthSessions := dictSet s'.oauthSessions sid s'.now }
  | .authStatusSuccess sid =>
      let s' := cleanupOauth s
      { s' with oauthSessions := s'.oauthSessions.filter (fun p => !(p.1 = sid : Bool)) }
  | .authStatusPending _ => cleanupOauth s
  | .preview _ => s
  | .reorderReq _ => s

/-- Run a whole request trace. -/
def srvRun (s : Srv) (ops : List SrvOp) : Srv := ops.foldl srvStep s

/-! ## The csv field-size limit (the parser's one raising path)

CPython's `csv` reader raises `_csv.Error` once a field grows past
`csv.field_size_limit()`; `parse_apple_playlist_text` therefore *can*
raise, and the upload route wraps it in `try/except` (main.py lines
316–319).  `parse_apple_playlist_text_checked` is the embedding with
this error path: `none` models the propagated `_csv.Error`. -/

/-- Constant `csv.field_size_limit()` default: 128 KiB. -/
def CSV_FIELD_SIZE_LIMIT : Nat := 131072

/-- Does a field exceed the limit?  CPython raises when a character is
added to a field already holding `field_size_limit()` characters, i.e.
exactly when the full field is longer than the limit. -/
def fieldOverLimit (f : String) : Bool :=
  decide (CSV_FIELD_SIZE_LIMIT < f.data.length)

/-- Does reading a row raise the field-size-limit error? -/
def rowOverLimit (r : List String) : Bool := r.any fieldOverLimit

/-- Embedding of `parse_apple_playlist_text` *with* the csv
field-size-limit error path; `none` models the `_csv.Error` the csv
module raises and the parser propagates.  The check sits exactly where
the program reads the reader: the header row is read by the
`reader.fieldnames` access (main.py line 77), the data rows by the row
loop (line 99) — which is only reached when a title column resolved, so
an over-long data field raises no error when the function already
returned `[]` at lines 95–96, and the fallback (lines 105–115) runs
only after the loop consumed every row without error. -/
def parse_apple_playlist_text_checked (raw_text : String) : Option (List TrackRecord) :=
  let lines := (pySplitlines raw_text).filter (fun l => !(pyStrip l.data).isEmpty)
  match lines with
  | [] => some []
  | first_line :: _ =>
      let delimiter : Char :=
        if first_line.data.contains '\t' then '\t'
        else if first_line.data.contains ';' then ';'
        else ','
      match csvRows delimiter raw_text with
      | [] => some []
      | fns :: dataRows =>
          if rowOverLimit fns then none
          else if fns.isEmpty then some []
          else
            match resolveField fns ["name", "title", "track name", "nome", "titolo"] with
            | none => some []
            | some titleField =>
                if titleField = "" then some []
                else if dataRows.any rowOverLimit then none
                else
                  let artistField := resolveField fns ["artist", "artist name", "artista"]
                  let parsed := (dataRows.filter (fun r => !r.isEmpty)).filterMap
                    (tabularRow fns titleField artistField)
                  some (if parsed.isEmpty then lines.filterMap fallbackLine else parsed)

end PlexReorder

namespace PlexReorder

/-! ## Generic helper lemmas -/

theorem lookup_mem_pair {α β : Type} [BEq α] [LawfulBEq α] {k : α} {v : β} :
    ∀ {l : List (α × β)}, List.lookup k l = some v → (k, v) ∈ l := by
  intro l
  induction l with
  | nil => intro h; simp [List.lookup] at h
  | cons p rest ih =>
      intro h
      rw [List.lookup] at h
      rcases hpk : k == p.1 with _ | _
      · rw [hpk] at h
        simp only [List.mem_cons]
        exact Or.inr (ih h)
      · rw [hpk] at h
        simp only [Option.some.injEq] at h
        have h1 : k = p.1 := by simpa using hpk
        simp [h1, ← h, Prod.ext_iff]

theorem getLast?_mem : ∀ {α : Type} {l : List α} {c : α}, l.getLast? = some c → c ∈ l := by
  intro α l
  induction l with
  | nil => intro c h; simp at h
  | cons a rest ih =>
      intro c h
      match rest, h with
      | [], h => simp at h; simp [h]
      | b :: t, h =>
          rw [List.getLast?_cons_cons] at h
          exact List.mem_cons_of_mem a (ih h)

theorem head?_dropWhile {p : Char → Bool} :
    ∀ {l : List Char} {c : Char}, (l.dropWhile p).head? = some c → p c = false := by
  intro l
  induction l with
  | nil => intro c h; simp [List.dropWhile] at h
  | cons a rest ih =>
      intro c h
      rw [List.dropWhile_cons] at h
      rcases hpa : p a with _ | _
      · rw [hpa] at h
        simp only [if_neg Bool.false_ne_true, List.head?_cons, Option.some.injEq] at h
        rw [← h]; exact hpa
      · rw [hpa] at h
        simp only [if_pos rfl] at h
        exact ih h

theorem getLast?_suffix_eq {α : Type} {s l : List α} (h : s <:+ l) (hne : s ≠ []) :
    l.getLast? = s.getLast? := by
  obtain ⟨t, rfl⟩ := h
  rw [List.getLast?_append]
  match s, hne with
  | a :: s', _ => simp [List.getLast?_cons]
  | [], hne => exact absurd rfl hne

end PlexReorder

namespace PlexReorder

/-! ## Whitespace-shape lemmas for the normalizer -/

/-- Structural invariant of whitespace-collapsed text: every whitespace
character is a single `' '` preceded and followed by non-whitespace (no
run, no trailing whitespace).  The flag records whether the previous
character was a space. -/
def wsOk : Bool → List Char → Bool
  | true, [] => false
  | false, [] => true
  | afterSp, c :: cs =>
      if ws c then (!afterSp && decide (c = ' ') && wsOk true cs) else wsOk false cs

/-- Fully normalized whitespace shape: additionally no leading
whitespace. -/
def wsNormed (l : List Char) : Bool :=
  match l with
  | [] => true
  | c :: _ => !ws c && wsOk false l

/-- No character of `l` past the last non-whitespace one: the last
character, if any, is not whitespace. -/
def LastOk (l : List Char) : Prop :=
  ∀ c, l.getLast? = some c → ws c = false

theorem lastOk_nil : LastOk [] := by intro c h; simp at h

theorem lastOk_tail {c : Char} {cs : List Char} (h : LastOk (c :: cs)) (hne : cs ≠ []) :
    LastOk cs := by
  intro d hd
  apply h
  match cs, hne with
  | b :: t, _ => rw [List.getLast?_cons_cons]; exact hd

theorem lastOk_cons_ws {c : Char} {cs : List Char} (h : LastOk (c :: cs))
    (hc : ws c = true) : cs ≠ [] := by
  intro hnil
  subst hnil
  have := h c (by simp)
  rw [this] at hc
  exact Bool.false_ne_true hc

theorem wsOk_collapseGo : ∀ l : List Char, LastOk l →
    wsOk false (collapseGo true l) = true ∧ wsOk false (collapseGo false l) = true ∧
      (l ≠ [] → wsOk true (collapseGo true l) = true) := by
  intro l
  induction l with
  | nil => intro _; refine ⟨rfl, rfl, fun h => absurd rfl h⟩
  | cons c cs ih =>
      intro hlast
      rcases hws : ws c with _ | _
      · -- c is not whitespace
        have hcs : LastOk cs ∨ cs = [] := by
          rcases Decidable.em (cs = []) with h | h
          · exact Or.inr h
          · exact Or.inl (lastOk_tail hlast h)
        have ihcs : wsOk false (collapseGo false cs) = true := by
          rcases hcs with h | h
          · exact (ih h).2.1
          · rw [h]; rfl
        refine ⟨?_, ?_, ?_⟩
        · simp only [collapseGo, hws, if_neg Bool.false_ne_true, wsOk, ihcs]
        · simp only [collapseGo, hws, if_neg Bool.false_ne_true, wsOk, ihcs]
        · intro _
          simp only [collapseGo, hws, if_neg Bool.false_ne_true, wsOk, ihcs]
      · -- c is whitespace: the last character being non-whitespace forces a tail
        have hne : cs ≠ [] := lastOk_cons_ws hlast hws
        have hcs : LastOk cs := lastOk_tail hlast hne
        obtain ⟨ih1, ih2, ih3⟩ := ih hcs
        refine ⟨?_, ?_, ?_⟩
        · simp only [collapseGo, hws, if_pos rfl]; exact ih1
        · have hsp : ws ' ' = true := by decide
          have hcol : collapseGo false (c :: cs) = ' ' :: collapseGo true cs := by
            simp [collapseGo, hws]
          rw [hcol]
          simpa [wsOk, hsp] using ih3 hne
        · intro _
          simp only [collapseGo, hws, if_pos rfl]
          exact ih3 hne

theorem wsNormed_collapseGo {l : List Char}
    (hhead : ∀ c, l.head? = some c → ws c = false) (hlast : LastOk l) :
    wsNormed (collapseGo false l) = true := by
  match l with
  | [] => rfl
  | c :: cs =>
      have hws : ws c = false := hhead c rfl
      have hcs : LastOk cs ∨ cs = [] := by
        rcases Decidable.em (cs = []) with h | h
        · exact Or.inr h
        · exact Or.inl (lastOk_tail hlast h)
      have ihcs : wsOk false (collapseGo false cs) = true := by
        rcases hcs with h | h
        · exact (wsOk_collapseGo cs h).2.1
        · rw [h]; rfl
      simp only [collapseGo, hws, if_neg Bool.false_ne_true, wsNormed, hws, wsOk, ihcs]
      simp

end PlexReorder

namespace PlexReorder

theorem collapseGo_fix : ∀ l : List Char,
    (wsOk false l = true → collapseGo false l = l) ∧
      (wsOk true l = true → collapseGo true l = l) := by
  intro l
  induction l with
  | nil => exact ⟨fun _ => rfl, fun _ => rfl⟩
  | cons c cs ih =>
      constructor
      · intro h
        rcases hws : ws c with _ | _
        · have h2 : wsOk false cs = true := by
            rw [wsOk, hws] at h
            simpa using h
          simp [collapseGo, hws, ih.1 h2]
        · simp [wsOk, hws] at h
          obtain ⟨hsp, htail⟩ := h
          subst hsp
          have hws2 : ws ' ' = true := by decide
          simp [collapseGo, hws2, ih.2 htail]
      · intro h
        rcases hws : ws c with _ | _
        · have h2 : wsOk false cs = true := by
            rw [wsOk, hws] at h
            simpa using h
          simp [collapseGo, hws, ih.1 h2]
        · rw [wsOk, hws] at h
          simp at h

theorem lastOk_of_wsOk : ∀ l : List Char,
    (wsOk false l = true ∨ wsOk true l = true) → LastOk l := by
  intro l
  induction l with
  | nil => intro _; exact lastOk_nil
  | cons c cs ih =>
      intro h
      rcases hws : ws c with _ | _
      · -- non-whitespace head
        have htail : wsOk false cs = true := by
          rcases h with h | h <;> (rw [wsOk, hws] at h; simpa using h)
        intro d hd
        match cs, hd with
        | [], hd => simp at hd; rw [← hd]; exact hws
        | b :: t, hd =>
            rw [List.getLast?_cons_cons] at hd
            exact ih (Or.inl htail) d hd
      · -- whitespace head: only the `false` flag admits it, and forces a tail
        have h' : wsOk false (c :: cs) = true := by
          rcases h with h | h
          · exact h
          · rw [wsOk, hws] at h; simp at h
        simp [wsOk, hws] at h'
        obtain ⟨hsp, htail⟩ := h'
        intro d hd
        match cs, htail, hd with
        | [], htail, hd => simp [wsOk] at htail
        | b :: t, htail, hd =>
            rw [List.getLast?_cons_cons] at hd
            exact ih (Or.inr htail) d hd

theorem dropWhile_eq_self_of_head {p : Char → Bool} {l : List Char}
    (h : ∀ c, l.head? = some c → p c = false) : l.dropWhile p = l := by
  match l with
  | [] => rfl
  | c :: cs =>
      rw [List.dropWhile_cons, h c rfl]
      simp

theorem pyStrip_fix {l : List Char}
    (hhead : ∀ c, l.head? = some c → ws c = false) (hlast : LastOk l) :
    pyStrip l = l := by
  unfold pyStrip
  rw [dropWhile_eq_self_of_head hhead]
  rw [dropWhile_eq_self_of_head (fun c hc => hlast c (by rwa [List.head?_reverse] at hc))]
  exact List.reverse_reverse l

theorem wsNormed_head {l : List Char} (h : wsNormed l = true) :
    ∀ c, l.head? = some c → ws c = false := by
  intro c hc
  match l, hc with
  | c :: cs, hc =>
      simp only [List.head?_cons, Option.some.injEq] at hc
      subst hc
      rw [wsNormed] at h
      simp only [Bool.and_eq_true, Bool.not_eq_true'] at h
      exact h.1

theorem wsNormed_wsOk {l : List Char} (h : wsNormed l = true) : wsOk false l = true := by
  match l with
  | [] => rfl
  | c :: cs =>
      rw [wsNormed] at h
      simp only [Bool.and_eq_true] at h
      exact h.2

theorem wsNormed_strip_fix {l : List Char} (h : wsNormed l = true) : pyStrip l = l :=
  pyStrip_fix (wsNormed_head h) (lastOk_of_wsOk l (Or.inl (wsNormed_wsOk h)))

theorem wsNormed_collapse_fix {l : List Char} (h : wsNormed l = true) :
    collapseGo false l = l :=
  (collapseGo_fix l).1 (wsNormed_wsOk h)

/-! ### Head/last shape of `pyStrip` output -/

theorem pyStrip_head {l : List Char} :
    ∀ c, (pyStrip l).head? = some c → ws c = false := by
  intro c hc
  unfold pyStrip at hc
  rw [List.head?_reverse] at hc
  have hsuff := List.dropWhile_suffix (l := (l.dropWhile ws).reverse) ws
  rcases hx : (l.dropWhile ws).reverse.dropWhile ws with _ | ⟨d, ds⟩
  · rw [hx] at hc; simp at hc
  · have hne : (l.dropWhile ws).reverse.dropWhile ws ≠ [] := by rw [hx]; simp
    have := getLast?_suffix_eq hsuff hne
    rw [← this] at hc
    rw [← List.head?_reverse] at hc
    rw [List.reverse_reverse] at hc
    exact head?_dropWhile hc

theorem pyStrip_last {l : List Char} : LastOk (pyStrip l) := by
  intro c hc
  unfold pyStrip at hc
  rw [← List.head?_reverse, List.reverse_reverse] at hc
  exact head?_dropWhile hc

theorem pyStrip_idem (l : List Char) : pyStrip (pyStrip l) = pyStrip l :=
  pyStrip_fix pyStrip_head pyStrip_last

theorem pyStrip_nil {l : List Char} (h : pyStrip l = []) : ∀ c ∈ l, ws c = true := by
  unfold pyStrip at h
  have h1 : (l.dropWhile ws).reverse.dropWhile ws = [] := by
    have := congrArg List.reverse h
    rwa [List.reverse_reverse] at this
  rw [List.dropWhile_eq_nil_iff] at h1
  have h2 : ∀ c ∈ l.dropWhile ws, ws c = true := by
    intro c hc
    exact h1 c (List.mem_reverse.mpr hc)
  intro c hc
  rw [← List.takeWhile_append_dropWhile ws l] at hc
  rcases List.mem_append.mp hc with h | h
  · exact List.mem_takeWhile_imp h
  · exact h2 c h

end PlexReorder

namespace PlexReorder

/-! ## Character stability under the normalizer pipeline -/

/-- A character untouched by decomposition, case mapping and
combining-mark removal. -/
def StableChar (c : Char) : Prop :=
  nfkd c = [c] ∧ pyLower c = c ∧ combining c = false

instance : DecidablePred StableChar := fun c => by
  unfold StableChar; infer_instance

/-- Every character produced by a decomposition-table entry becomes
stable after lower-casing, provided it is not a combining mark. -/
theorem stable_of_nfkd_table : ∀ p ∈ nfkdTable, ∀ d ∈ p.2,
    combining d = false → StableChar (pyLower d) := by decide

/-- Every lower-case image of a case-table entry whose source has no
decomposition is stable. -/
theorem stable_of_lower_table : ∀ p ∈ lowerTable,
    List.lookup p.1 nfkdTable = none → StableChar p.2 := by decide

/-- Any non-combining character of any character's NFKD decomposition is
stable after lower-casing. -/
theorem pipeline_char_stable : ∀ c d, d ∈ nfkd c → combining d = false →
    StableChar (pyLower d) := by
  intro c d hd hcomb
  rcases h : List.lookup c nfkdTable with _ | l
  · -- no decomposition: d = c
    unfold nfkd at hd
    rw [h] at hd
    simp only [Option.getD_none, List.mem_singleton] at hd
    subst hd
    rcases h2 : List.lookup d lowerTable with _ | v
    · have hlow : pyLower d = d := by unfold pyLower; rw [h2]; rfl
      rw [hlow]
      exact ⟨by unfold nfkd; rw [h]; rfl, hlow, hcomb⟩
    · have hlow : pyLower d = v := by unfold pyLower; rw [h2]; rfl
      rw [hlow]
      exact stable_of_lower_table (d, v) (lookup_mem_pair h2) h
  · have hdl : d ∈ l := by
      unfold nfkd at hd
      rw [h] at hd
      simpa using hd
    exact stable_of_nfkd_table (c, l) (lookup_mem_pair h) d hdl hcomb

/-- The character pipeline of `normalize_text` before the whitespace
steps. -/
def pipelineChars (l : List Char) : List Char :=
  ((l.flatMap nfkd).filter (fun c => !combining c)).map pyLower

theorem normalize_text_eq (s : String) :
    normalize_text s =
      if s.data.isEmpty then "" else
        String.mk (collapseGo false (pyStrip (pipelineChars s.data))) := rfl

theorem pipelineChars_stable {l : List Char} :
    ∀ d ∈ pipelineChars l, StableChar d := by
  intro d hd
  unfold pipelineChars at hd
  rw [List.mem_map] at hd
  obtain ⟨x, hx, rfl⟩ := hd
  rw [List.mem_filter] at hx
  obtain ⟨hxfm, hxcomb⟩ := hx
  rw [List.mem_flatMap] at hxfm
  obtain ⟨c, -, hcx⟩ := hxfm
  exact pipeline_char_stable c x hcx (by simpa using hxcomb)

theorem pipelineChars_id {l : List Char} (h : ∀ d ∈ l, StableChar d) :
    pipelineChars l = l := by
  induction l with
  | nil => rfl
  | cons c cs ih =>
      obtain ⟨hn, hl, hc⟩ := h c (List.mem_cons_self c cs)
      have hrest : pipelineChars cs = cs := ih fun d hd => h d (List.mem_cons_of_mem c hd)
      unfold pipelineChars at hrest ⊢
      rw [List.flatMap_cons, hn]
      simp [List.filter_cons, hc, hl, hrest]

theorem mem_pyStrip {l : List Char} {d : Char} (h : d ∈ pyStrip l) : d ∈ l := by
  unfold pyStrip at h
  rw [List.mem_reverse] at h
  have h2 := (List.dropWhile_sublist ws (l := (l.dropWhile ws).reverse)).mem h
  rw [List.mem_reverse] at h2
  exact (List.dropWhile_sublist ws (l := l)).mem h2

theorem mem_collapseGo : ∀ (b : Bool) (l : List Char) (d : Char),
    d ∈ collapseGo b l → d ∈ l ∨ d = ' ' := by
  intro b l
  induction l generalizing b with
  | nil => intro d h; cases b <;> simp [collapseGo] at h
  | cons c cs ih =>
      intro d h
      rcases hws : ws c with _ | _
      · have hgo : ∀ b : Bool, collapseGo b (c :: cs) = c :: collapseGo false cs := by
          intro b; cases b <;> simp [collapseGo, hws]
        rw [hgo] at h
        rcases List.mem_cons.mp h with h | h
        · exact Or.inl (by simp [h])
        · rcases ih false d h with h2 | h2
          · exact Or.inl (List.mem_cons_of_mem c h2)
          · exact Or.inr h2
      · cases b
        · have hgo : collapseGo false (c :: cs) = ' ' :: collapseGo true cs := by
            simp [collapseGo, hws]
          rw [hgo] at h
          rcases List.mem_cons.mp h with h | h
          · exact Or.inr h
          · rcases ih true d h with h2 | h2
            · exact Or.inl (List.mem_cons_of_mem c h2)
            · exact Or.inr h2
        · have hgo : collapseGo true (c :: cs) = collapseGo true cs := by
            simp [collapseGo, hws]
          rw [hgo] at h
          rcases ih true d h with h2 | h2
          · exact Or.inl (List.mem_cons_of_mem c h2)
          · exact Or.inr h2

end PlexReorder

namespace PlexReorder

/-! ## Idempotence of the normalizer -/

theorem normalize_chars_stable (x : String) :
    ∀ d ∈ (normalize_text x).data, StableChar d := by
  intro d hd
  rw [normalize_text_eq] at hd
  by_cases hempty : x.data.isEmpty = true
  · rw [if_pos hempty] at hd
    simp at hd
  · rw [if_neg hempty] at hd
    rcases mem_collapseGo false _ d hd with h | h
    · exact pipelineChars_stable d (mem_pyStrip h)
    · rw [h]; decide

theorem normalize_wsNormed (x : String) :
    wsNormed (normalize_text x).data = true := by
  rw [normalize_text_eq]
  by_cases hempty : x.data.isEmpty = true
  · rw [if_pos hempty]; rfl
  · rw [if_neg hempty]
    exact wsNormed_collapseGo pyStrip_head pyStrip_last

theorem normalize_text_idem (x : String) :
    normalize_text (normalize_text x) = normalize_text x := by
  have hstable := normalize_chars_stable x
  have hnormed := normalize_wsNormed x
  by_cases hempty : (normalize_text x).data.isEmpty = true
  · rw [normalize_text_eq (normalize_text x), if_pos hempty]
    exact String.ext (by simpa using (List.isEmpty_iff.mp hempty).symm)
  · rw [normalize_text_eq (normalize_text x), if_neg hempty]
    rw [pipelineChars_id hstable, wsNormed_strip_fix hnormed, wsNormed_collapse_fix hnormed]

/-! ## Equivalence of the spec-worded whitespace collapse -/

theorem collapseGo_true_dropWhile : ∀ l : List Char,
    collapseGo true l = collapseGo false (l.dropWhile ws) := by
  intro l
  induction l with
  | nil => rfl
  | cons c cs ih =>
      rcases hws : ws c with _ | _
      · simp [collapseGo, List.dropWhile_cons, hws]
      · simp [collapseGo, List.dropWhile_cons, hws, ih]

theorem specCollapse_eq (l : List Char) : specCollapse l = collapseGo false l := by
  have H : ∀ (n : Nat) (l : List Char), l.length ≤ n →
      specCollapse l = collapseGo false l := by
    intro n
    induction n with
    | zero =>
        intro l hl
        have h0 : l = [] := List.length_eq_zero.mp (Nat.le_zero.mp hl)
        subst h0
        simp [specCollapse, collapseGo]
    | succ n ihn =>
        intro l hl
        match l with
        | [] => simp [specCollapse, collapseGo]
        | c :: cs =>
            rcases hws : ws c with _ | _
            · have h1 : specCollapse (c :: cs) = c :: specCollapse cs := by
                simp only [specCollapse]
                rw [hws]
                simp
              have h2 : collapseGo false (c :: cs) = c :: collapseGo false cs := by
                simp [collapseGo, hws]
              rw [h1, h2, ihn cs (Nat.le_of_succ_le_succ hl)]
            · have hlen : (cs.dropWhile ws).length ≤ n :=
                Nat.le_trans (List.dropWhile_sublist ws (l := cs)).length_le
                  (Nat.le_of_succ_le_succ hl)
              have h1 : specCollapse (c :: cs) = ' ' :: specCollapse (cs.dropWhile ws) := by
                simp only [specCollapse]
                rw [hws]
                simp
              have h2 : collapseGo false (c :: cs) = ' ' :: collapseGo true cs := by
                simp [collapseGo, hws]
              rw [h1, h2, collapseGo_true_dropWhile, ihn _ hlen]
  exact H l.length l Nat.le.refl

end PlexReorder

namespace PlexReorder

/-- C6: `normalize` is idempotent — for every string `x`,
`normalize(normalize(x)) = normalize(x)` — and locale-insensitive, with
`normalize("CAFÉ") = normalize("cafe") = "cafe"` (the model's case
mapping is the locale-independent Unicode simple mapping; the concrete
equalities exhibit the accented/upper-case collapse). -/
theorem c6_normalize_idempotent :
    (∀ x : String, normalize_text (normalize_text x) = normalize_text x) ∧
      normalize_text "CAF\u00c9" = normalize_text "cafe" ∧
        normalize_text "cafe" = "cafe" :=
  ⟨normalize_text_idem, by decide, by decide⟩

/-- C7 counterexample: the code's normalizer does **not** equal the
spec's reference algorithm as written: the spec prescribes *canonical*
decomposition, but the code applies the *compatibility* (NFKD)
decomposition, and on the superscript-two character `²` (U+00B2) the two
differ — the code yields `"2"`, the canonical-decomposition reference
yields `"²"`. -/
theorem normalizeSpecCanonical_go (s : String) :
    normalizeSpecCanonical s =
      if s.data.isEmpty then "" else
        String.mk (collapseGo false (specTrim
          (((s.data.flatMap nfd).filter (fun c => !combining c)).map pyLower))) := by
  unfold normalizeSpecCanonical
  by_cases hempty : s.data.isEmpty = true
  · rw [if_pos hempty, if_pos hempty]
  · rw [if_neg hempty, if_neg hempty, specCollapse_eq]

theorem c7_counterexample :
    normalize_text "\u00b2" ≠ normalizeSpecCanonical "\u00b2" := by
  rw [normalizeSpecCanonical_go]
  decide

/-- C7 (amended): for every string, `normalize` equals the spec's
reference algorithm with step (2) read as *compatibility* (NFKD)
decomposition: empty input returns empty; otherwise decompose (NFKD),
drop all combining marks, lower-case, trim leading/trailing whitespace,
and collapse every whitespace run to a single space. -/
theorem c7_normalize_matches_spec_algorithm :
    ∀ s : String, normalize_text s = normalizeSpecCompat s := by
  intro s
  rw [normalize_text_eq]
  unfold normalizeSpecCompat
  by_cases hempty : s.data.isEmpty = true
  · rw [if_pos hempty, if_pos hempty]
  · rw [if_neg hempty, if_neg hempty]
    rw [specCollapse_eq]
    rfl

end PlexReorder

namespace PlexReorder

/-! ## Bucket-index lemmas -/

theorem indexGet_bucketsInsert {κ : Type} [DecidableEq κ] (k : κ) (it : PlexItem)
    (acc : List (κ × List PlexItem)) (q : κ) :
    indexGet (bucketsInsert k it acc) q =
      if q = k then indexGet acc q ++ [it] else indexGet acc q := by
  induction acc with
  | nil =>
      by_cases hq : q = k
      · subst hq; simp [bucketsInsert, indexGet]
      · simp [bucketsInsert, indexGet, hq, Ne.symm hq]
  | cons p rest ih =>
      obtain ⟨k0, l0⟩ := p
      by_cases h0 : k0 = k
      · subst h0
        by_cases hq : q = k0
        · subst hq; simp [bucketsInsert, indexGet]
        · simp [bucketsInsert, indexGet, hq, Ne.symm hq]
      · by_cases hq : k0 = q
        · subst hq
          simp [bucketsInsert, indexGet, h0]
        · simp [bucketsInsert, indexGet, h0, hq, ih]

theorem indexGet_buildIndex {κ : Type} [DecidableEq κ] (keyf : PlexItem → κ) :
    ∀ (items : List PlexItem) (acc : List (κ × List PlexItem)) (q : κ),
      indexGet (items.foldl (fun acc it => bucketsInsert (keyf it) it acc) acc) q =
        indexGet acc q ++ items.filter (fun it => decide (keyf it = q)) := by
  intro items
  induction items with
  | nil => intro acc q; simp
  | cons it rest ih =>
      intro acc q
      rw [List.foldl_cons, ih, indexGet_bucketsInsert]
      by_cases hq : q = keyf it
      · subst hq
        simp [List.filter_cons]
      · rw [if_neg hq]
        have : (decide (keyf it = q)) = false := by
          simp only [decide_eq_false_iff_not]
          exact fun h => hq h.symm
        simp [List.filter_cons, this]

theorem indexGet_eq_filter {κ : Type} [DecidableEq κ] (keyf : PlexItem → κ)
    (items : List PlexItem) (q : κ) :
    indexGet (buildIndex keyf items) q =
      items.filter (fun it => decide (keyf it = q)) := by
  unfold buildIndex
  rw [indexGet_buildIndex]
  rfl

/-! ## Counting: each imported record is matched or missing (C2) -/

theorem recoStep_count (byTA : List ((String × String) × List PlexItem))
    (byT : List (String × List PlexItem)) (st : RecoState) (t : TrackRecord) :
    (recoStep byTA byT st t).selected.length + (recoStep byTA byT st t).missing.length =
      st.selected.length + st.missing.length + 1 := by
  unfold recoStep
  rcases h1 : (indexGet byTA (normalize_key t.title t.artist)).find? (notUsed st.used) with _ | c
  · rcases h2 : (indexGet byT (normalize_text t.title)).find? (notUsed st.used) with _ | c
    · simp [h1, h2]; omega
    · simp [h1, h2]; omega
  · simp [h1]; omega

theorem recoFold_count (byTA : List ((String × String) × List PlexItem))
    (byT : List (String × List PlexItem)) :
    ∀ (l : List TrackRecord) (st : RecoState),
      (l.foldl (recoStep byTA byT) st).selected.length +
          (l.foldl (recoStep byTA byT) st).missing.length =
        st.selected.length + st.missing.length + l.length := by
  intro l
  induction l with
  | nil => intro st; simp
  | cons t rest ih =>
      intro st
      rw [List.foldl_cons, ih, recoStep_count]
      simp [List.length_cons]
      omega

/-- C2: for every imported track sequence and every remote snapshot, the
plan satisfies `matchedCount + |missing| = |imported|`: each imported
record is counted exactly once, as matched or as missing. -/
theorem c2_conservation (items : List PlexItem) (imported : List TrackRecord) :
    (build_reorder_plan items imported).matchCount +
        (build_reorder_plan items imported).missing_in_plex.length =
      imported.length := by
  unfold build_reorder_plan
  by_cases hempty : items.isEmpty = true
  · rw [if_pos hempty]; simp
  · rw [if_neg hempty]
    show (recoFold items imported).selected.length +
        (recoFold items imported).missing.length = imported.length
    unfold recoFold
    rw [recoFold_count]
    simp

end PlexReorder

namespace PlexReorder

/-! ## The reconciliation invariant (C1, C8) -/

theorem contains_iff_mem {l : List Nat} {a : Nat} : l.contains a = true ↔ a ∈ l := by
  simp [List.contains]

/-- Characterization of one matching step: either some unconsumed
candidate of one of the two buckets is consumed, or the record is
reported missing. -/
theorem recoStep_cases (byTA : List ((String × String) × List PlexItem))
    (byT : List (String × List PlexItem)) (st : RecoState) (t : TrackRecord) :
    (∃ c, recoStep byTA byT st t =
        { used := c.ratingKey :: st.used, selected := st.selected ++ [c],
          missing := st.missing } ∧
      notUsed st.used c = true ∧
      (c ∈ indexGet byTA (normalize_key t.title t.artist) ∨
        c ∈ indexGet byT (normalize_text t.title))) ∨
    recoStep byTA byT st t = { st with missing := st.missing ++ [t] } := by
  unfold recoStep
  rcases h1 : (indexGet byTA (normalize_key t.title t.artist)).find? (notUsed st.used) with _ | c
  · rcases h2 : (indexGet byT (normalize_text t.title)).find? (notUsed st.used) with _ | c
    · right; simp [h1, h2]
    · left
      exact ⟨c, by simp [h1, h2], List.find?_some h2,
        Or.inr (List.mem_of_find?_eq_some h2)⟩
  · left
    exact ⟨c, by simp [h1], List.find?_some h1,
      Or.inl (List.mem_of_find?_eq_some h1)⟩

/-- Loop invariant: the consumed set is exactly the selected items'
rating keys, no key is consumed twice, and every selected item comes
from the remote snapshot. -/
def RSInv (items : List PlexItem) (st : RecoState) : Prop :=
  st.used = (st.selected.map (fun it => it.ratingKey)).reverse ∧
    st.used.Nodup ∧ ∀ it ∈ st.selected, it ∈ items

theorem recoStep_inv {items : List PlexItem} {st : RecoState} {t : TrackRecord}
    (h : RSInv items st) :
    RSInv items (recoStep (exactIndexOf items) (titleIndexOf items) st t) := by
  obtain ⟨hused, hnd, hsub⟩ := h
  rcases recoStep_cases (exactIndexOf items) (titleIndexOf items) st t with
    ⟨c, heq, hnu, hmem⟩ | heq
  · rw [heq]
    refine ⟨?_, ?_, ?_⟩
    · show c.ratingKey :: st.used = ((st.selected ++ [c]).map (fun it => it.ratingKey)).reverse
      rw [hused, List.map_append, List.reverse_append]
      rfl
    · show (c.ratingKey :: st.used).Nodup
      refine List.nodup_cons.mpr ⟨?_, hnd⟩
      intro hin
      have : st.used.contains c.ratingKey = true := contains_iff_mem.mpr hin
      unfold notUsed at hnu
      rw [this] at hnu
      exact Bool.false_ne_true hnu
    · intro it hit
      rcases List.mem_append.mp hit with h | h
      · exact hsub it h
      · have hc : it = c := by simpa using h
        subst hc
        rcases hmem with hm | hm
        · rw [exactIndexOf, indexGet_eq_filter] at hm
          exact (List.mem_filter.mp hm).1
        · rw [titleIndexOf, indexGet_eq_filter] at hm
          exact (List.mem_filter.mp hm).1
  · rw [heq]
    exact ⟨hused, hnd, hsub⟩

theorem recoFold_inv (items : List PlexItem) (imported : List TrackRecord) :
    RSInv items (recoFold items imported) := by
  unfold recoFold
  have H : ∀ (l : List TrackRecord) (st : RecoState), RSInv items st →
      RSInv items (l.foldl (recoStep (exactIndexOf items) (titleIndexOf items)) st) := by
    intro l
    induction l with
    | nil => intro st h; exact h
    | cons t rest ih =>
        intro st h
        rw [List.foldl_cons]
        exact ih _ (recoStep_inv h)
  exact H imported ⟨[], [], []⟩ ⟨rfl, List.nodup_nil, by intro it h; simp at h⟩

/-- C1 counterexample: with a remote snapshot holding the *same* catalog
entry (ratingKey 7) in two playlist slots (ids 1 and 2) and a matching
one-track import, the plan's `new_order_ids` is `[1]`: slot 2 is dropped,
so `targetOrder` is *not* a permutation of the snapshot's itemIds. -/
theorem c1_counterexample :
    ¬ (build_reorder_plan [⟨"a", "x", "", 7, 1⟩, ⟨"a", "x", "", 7, 2⟩]
          [⟨"a", "x"⟩]).new_order_ids.Perm
        (([⟨"a", "x", "", 7, 1⟩, ⟨"a", "x", "", 7, 2⟩] : List PlexItem).map
          (fun it => it.playlistItemID)) := by decide

/-- C1 (amended): whenever the remote snapshot's items carry pairwise
distinct `ratingKey`s (one playlist slot per catalog entry), the
`new_order_ids` of the plan are exactly a permutation of the snapshot's
`playlistItemID`s: nothing dropped, nothing invented, no duplicates. -/
theorem c1_target_order_perm (items : List PlexItem) (imported : List TrackRecord)
    (hrk : (items.map (fun it => it.ratingKey)).Nodup) :
    (build_reorder_plan items imported).new_order_ids.Perm
      (items.map (fun it => it.playlistItemID)) := by
  by_cases hempty : items.isEmpty = true
  · have h0 : items = [] := List.isEmpty_iff.mp hempty
    subst h0
    simp [build_reorder_plan]
  · unfold build_reorder_plan
    rw [if_neg hempty]
    show ((recoFold items imported).selected ++
        items.filter (fun it => !(recoFold items imported).used.contains it.ratingKey)).map
          (fun it => it.playlistItemID) |>.Perm (items.map (fun it => it.playlistItemID))
    obtain ⟨hused, hndU, hsub⟩ := recoFold_inv items imported
    apply List.Perm.map
    have hitems_nd : items.Nodup := List.Nodup.of_map _ hrk
    have hselmap_nd : ((recoFold items imported).selected.map
        (fun it => it.ratingKey)).Nodup := by
      rw [hused] at hndU
      exact List.nodup_reverse.mp hndU
    have hsel_nd : (recoFold items imported).selected.Nodup :=
      List.Nodup.of_map _ hselmap_nd
    have hmemU : ∀ k, (recoFold items imported).used.contains k = true ↔
        k ∈ (recoFold items imported).selected.map (fun it => it.ratingKey) := by
      intro k
      rw [contains_iff_mem, hused, List.mem_reverse]
    have hperm1 : (recoFold items imported).selected.Perm
        (items.filter (fun it => (recoFold items imported).used.contains it.ratingKey)) := by
      refine (List.perm_ext_iff_of_nodup hsel_nd (hitems_nd.filter _)).mpr ?_
      intro a
      constructor
      · intro ha
        exact List.mem_filter.mpr ⟨hsub a ha,
          (hmemU _).mpr (List.mem_map_of_mem _ ha)⟩
      · intro ha
        obtain ⟨hai, hac⟩ := List.mem_filter.mp ha
        obtain ⟨b, hb, hbk⟩ := List.mem_map.mp ((hmemU _).mp hac)
        have hba : b = a := List.inj_on_of_nodup_map hrk (hsub b hb) hai hbk
        rwa [← hba]
    exact (hperm1.append_right _).trans
      (List.filter_append_perm (fun it => (recoFold items imported).used.contains it.ratingKey)
        items)

/-- Witness for the amended C1 on a concrete distinct-key snapshot. -/
theorem c1_target_order_perm_witness :
    (([⟨"a", "x", "", 7, 1⟩, ⟨"b", "y", "", 8, 2⟩] : List PlexItem).map
        (fun it => it.ratingKey)).Nodup ∧
      (build_reorder_plan [⟨"a", "x", "", 7, 1⟩, ⟨"b", "y", "", 8, 2⟩]
          [⟨"a", "x"⟩]).new_order_ids.Perm
        (([⟨"a", "x", "", 7, 1⟩, ⟨"b", "y", "", 8, 2⟩] : List PlexItem).map
          (fun it => it.playlistItemID)) :=
  ⟨by decide, c1_target_order_perm _ _ (by decide)⟩

end PlexReorder

namespace PlexReorder

/-- C8: exact match is preferred over title-only match: whenever the
exact (title, artist) bucket for the imported record's normalized key
holds *any* candidate not yet consumed, the matching step selects the
first such exact candidate — whose normalized (title, artist) key equals
the record's — and the title-only index is never consulted, regardless
of any earlier title-only candidate. -/
theorem c8_exact_over_loose (items : List PlexItem) (st : RecoState) (track : TrackRecord)
    (h : ∃ c ∈ indexGet (exactIndexOf items) (normalize_key track.title track.artist),
      notUsed st.used c = true) :
    ∃ c, (indexGet (exactIndexOf items) (normalize_key track.title track.artist)).find?
          (notUsed st.used) = some c ∧
      (recoStep (exactIndexOf items) (titleIndexOf items) st track).selected =
          st.selected ++ [c] ∧
        normalize_key c.title (artistOf c) = normalize_key track.title track.artist := by
  have hsome : ((indexGet (exactIndexOf items)
      (normalize_key track.title track.artist)).find? (notUsed st.used)).isSome = true :=
    List.find?_isSome.mpr h
  rcases hc : (indexGet (exactIndexOf items)
      (normalize_key track.title track.artist)).find? (notUsed st.used) with _ | c
  · rw [hc] at hsome; simp at hsome
  · refine ⟨c, rfl, ?_, ?_⟩
    · unfold recoStep
      simp only [hc]
    · have hmem := List.mem_of_find?_eq_some hc
      rw [exactIndexOf, indexGet_eq_filter] at hmem
      have := (List.mem_filter.mp hmem).2
      simpa using this

/-- Witness for C8: the remote playlist holds a title-only candidate
(artist `other`, slot 1) *before* the exact candidate (artist `x`,
slot 2); the step consumes the exact one. -/
theorem c8_exact_over_loose_witness :
    (∃ c ∈ indexGet (exactIndexOf [⟨"t", "other", "", 1, 1⟩, ⟨"t", "x", "", 2, 2⟩])
        (normalize_key "t" "x"), notUsed [] c = true) ∧
      (∃ c, (indexGet (exactIndexOf [⟨"t", "other", "", 1, 1⟩, ⟨"t", "x", "", 2, 2⟩])
            (normalize_key "t" "x")).find? (notUsed []) = some c ∧
        (recoStep (exactIndexOf [⟨"t", "other", "", 1, 1⟩, ⟨"t", "x", "", 2, 2⟩])
            (titleIndexOf [⟨"t", "other", "", 1, 1⟩, ⟨"t", "x", "", 2, 2⟩])
            ⟨[], [], []⟩ ⟨"t", "x"⟩).selected = [] ++ [c] ∧
          normalize_key c.title (artistOf c) = normalize_key "t" "x") :=
  ⟨by decide,
    c8_exact_over_loose [⟨"t", "other", "", 1, 1⟩, ⟨"t", "x", "", 2, 2⟩]
      ⟨[], [], []⟩ ⟨"t", "x"⟩ (by decide)⟩

end PlexReorder

namespace PlexReorder

/-! ## C9: the reorder applicator emits head/after-previous moves -/

theorem reorderGo_some (items : List PlexItem) :
    ∀ (ids : List Nat) (p : PlexItem),
      reorderGo items (some p) ids = specOpsFrom p (ids.filterMap (liveMapGet items)) := by
  intro ids
  induction ids with
  | nil => intro p; rfl
  | cons pid rest ih =>
      intro p
      rcases hres : liveMapGet items pid with _ | it
      · simp [reorderGo, hres, List.filterMap_cons, ih]
      · simp [reorderGo, hres, List.filterMap_cons, specOpsFrom, ih]

/-- C9: the Reorder Applicator processes `targetOrder` left to right
with a `previous` cursor: identifiers absent from the live item map are
skipped without error, the first resolved item is moved to the playlist
head, each later resolved item is moved to immediately follow the
previously resolved one, and `previous` advances to every resolved item
— i.e., the emitted move sequence is exactly the head/after chain over
`targetOrder.filterMap liveMap`. -/
theorem c9_reorder_applicator (items : List PlexItem) (orderedIds : List Nat) :
    reorderOps items orderedIds = specOps (orderedIds.filterMap (liveMapGet items)) := by
  unfold reorderOps
  induction orderedIds with
  | nil => rfl
  | cons pid rest ih =>
      rcases hres : liveMapGet items pid with _ | it
      · simp [reorderGo, hres, List.filterMap_cons, ih]
      · simp [reorderGo, hres, List.filterMap_cons, specOps, reorderGo_some]

/-! ## C10: the upload cache never evicts -/

theorem dictGet_dictSet {β : Type} (l : List (String × β)) (k i : String) (v : β) :
    dictGet (dictSet l k v) i = if i = k then some v else dictGet l i := by
  induction l with
  | nil =>
      by_cases h : i = k
      · subst h
        simp [dictSet, dictGet]
      · have h2 : ¬ k = i := fun hh => h hh.symm
        simp [dictSet, dictGet, h, h2]
  | cons p rest ih =>
      obtain ⟨k0, v0⟩ := p
      by_cases h0 : k0 = k
      · subst h0
        by_cases h : i = k0
        · subst h
          simp [dictSet, dictGet]
        · have h2 : ¬ k0 = i := fun hh => h hh.symm
          simp [dictSet, dictGet, h, h2]
      · by_cases h : k0 = i
        · subst h
          have h2 : ¬ k0 = k := h0
          simp [dictSet, dictGet, h2]
        · simp [dictSet, dictGet, h0, h, ih]

theorem srvStep_uploads_monotone (s : Srv) (op : SrvOp) (id : String)
    (h : (dictGet s.uploads id).isSome = true) :
    (dictGet (srvStep s op).uploads id).isSome = true := by
  cases op with
  | tick n => exact h
  | upload k tracks =>
      show (dictGet (dictSet s.uploads k tracks) id).isSome = true
      rw [dictGet_dictSet]
      by_cases hk : id = k
      · rw [if_pos hk]; rfl
      · rw [if_neg hk]; exact h
  | authStart sid => exact h
  | authStatusSuccess sid => exact h
  | authStatusPending sid => exact h
  | preview pid => exact h
  | reorderReq pid => exact h

theorem srvRun_uploads_monotone (ops : List SrvOp) :
    ∀ (s : Srv) (id : String), (dictGet s.uploads id).isSome = true →
      (dictGet (srvRun s ops).uploads id).isSome = true := by
  induction ops with
  | nil => intro s id h; exact h
  | cons op rest ih =>
      intro s id h
      show (dictGet (srvRun (srvStep s op) rest).uploads id).isSome = true
      exact ih _ _ (srvStep_uploads_monotone s op id h)

/-- C10: the upload cache has **no** expiry.  Contrary to the claim, the
code never evicts `UPLOAD_CACHE` entries (only `OAUTH_CACHE` has TTL
cleanup): once an upload is stored, its entry survives *every* later
request trace — ticks of any size, OAuth-cache cleanups, other uploads,
previews and reorders — so a later lookup is never a miss. -/
theorem c10_upload_cache_never_evicted :
    ∀ ops : List SrvOp,
      (dictGet (srvRun (srvStep ⟨[], [], 0⟩
          (SrvOp.upload "u" [⟨"Yesterday", "The Beatles"⟩])) ops).uploads "u").isSome =
        true := by
  intro ops
  exact srvRun_uploads_monotone ops _ "u" (by decide)

end PlexReorder

namespace PlexReorder

/-- Decode-level totality: the four-codec attempt chain always succeeds
before the `errors="replace"` fallback — `latin-1` accepts every byte
sequence — so `decode_uploaded_bytes` never fails and returns the
chain's text.  (Decoding is not where the import pipeline can raise;
the csv field-size limit is, see `parse_apple_playlist_text_checked`.) -/
theorem decode_chain_total (raw : List (Fin 256)) :
    decodeChain (raw.map Fin.val) = some (decode_uploaded_bytes raw).data ∧
      parse_apple_playlist_text (decode_uploaded_bytes raw) =
        parse_apple_playlist_text (String.mk ((decodeChain (raw.map Fin.val)).getD [])) := by
  have hsome : ∃ cs, decodeChain (raw.map Fin.val) = some cs := by
    unfold decodeChain
    rcases h16 : utf16Decode (raw.map Fin.val) with _ | cs
    · rcases hsig : utf8SigDecode (raw.map Fin.val) with _ | cs
      · rcases h8 : utf8Decode (raw.map Fin.val) with _ | cs
        · exact ⟨(raw.map Fin.val).map Char.ofNat, by simp [Option.orElse, latin1Decode]⟩
        · exact ⟨cs, by simp [Option.orElse]⟩
      · exact ⟨cs, by simp [Option.orElse]⟩
    · exact ⟨cs, by simp [Option.orElse]⟩
  obtain ⟨cs, hcs⟩ := hsome
  have hdec : decode_uploaded_bytes raw = String.mk cs := by
    unfold decode_uploaded_bytes
    rw [hcs]
    rfl
  constructor
  · rw [hcs, hdec]
  · rw [hcs, hdec]
    rfl

/-- C4: the plain-line fallback does **not** apply to the spec's own
example.  On the single-line input `The Beatles - Yesterday` the parser
returns the empty sequence — the function returns early when no title
column resolves (main.py lines 95–96), before the fallback at lines
105–115 is ever reached — even though the fallback, had it run, would
have produced exactly the claimed record (second conjunct), and the
upload route's error message advertises `'Artist - Title'` rows as
supported. -/
theorem c4_fallback_unreachable :
    parse_apple_playlist_text "The Beatles - Yesterday" = [] ∧
      fallbackLine "The Beatles - Yesterday" =
        some ⟨"Yesterday", "The Beatles"⟩ := by
  constructor
  · decide
  · decide

end PlexReorder

namespace PlexReorder

/-! ## C5: every emitted record has a non-blank trimmed title -/

theorem pySplitOnce_eq {sep : List Char} :
    ∀ {l a b : List Char}, pySplitOnce sep l = some (a, b) → l = a ++ (sep ++ b) := by
  intro l
  induction l with
  | nil =>
      intro a b h
      unfold pySplitOnce at h
      split at h
      · rename_i hpre
        have hsep : sep = [] := by
          have := List.isPrefixOf_iff_prefix.mp hpre
          simpa using this
        simp only [Option.some.injEq, Prod.mk.injEq] at h
        obtain ⟨ha, hb⟩ := h
        subst hsep
        simp [← ha, ← hb]
      · simp at h
  | cons c cs ih =>
      intro a b h
      unfold pySplitOnce at h
      split at h
      · rename_i hpre
        obtain ⟨t, ht⟩ := List.isPrefixOf_iff_prefix.mp hpre
        simp only [Option.some.injEq, Prod.mk.injEq] at h
        obtain ⟨ha, hb⟩ := h
        subst ha
        have hdrop : (c :: cs).drop sep.length = t := by
          rw [← ht]
          exact List.drop_left sep t
        rw [← hb, hdrop, List.nil_append]
        exact ht.symm
      · rcases hrec : pySplitOnce sep cs with _ | p
        · rw [hrec] at h; simp at h
        · rw [hrec] at h
          obtain ⟨a', b'⟩ := p
          simp at h
          obtain ⟨ha, hb⟩ := h
          have := ih hrec
          rw [← ha, ← hb]
          simp [this]

theorem getLast?_isSome_of_ne_nil {α : Type} {l : List α} (h : l ≠ []) :
    ∃ c, l.getLast? = some c := by
  match l, h with
  | a :: t, _ => exact ⟨(a :: t).getLast (by simp), List.getLast?_eq_getLast _ _⟩

theorem tabularRow_title {fns : List String} {tf : String} {af : Option String}
    {row : List String} {r : TrackRecord} (h : tabularRow fns tf af row = some r) :
    pyStrip r.title.data ≠ [] ∧ pyStrip r.title.data = r.title.data := by
  simp only [tabularRow] at h
  split at h
  · simp at h
  · rename_i hne
    simp only [Option.some.injEq] at h
    subst h
    constructor
    · intro hnil
      have hnil2 : pyStrip (pyStrip ((dictRowGet fns row tf).getD "").data) = [] := hnil
      rw [pyStrip_idem] at hnil2
      exact hne (String.ext (by simpa using hnil2))
    · exact pyStrip_idem ((dictRowGet fns row tf).getD "").data

theorem fallbackLine_title {line : String} {r : TrackRecord}
    (h : fallbackLine line = some r) :
    pyStrip r.title.data ≠ [] ∧ pyStrip r.title.data = r.title.data := by
  simp only [fallbackLine] at h
  split at h
  · simp at h
  · rename_i hne
    have hclean_ne : pyStrip line.data ≠ [] := by
      intro hh
      rw [hh] at hne
      simp at hne
    have hlast : LastOk (pyStrip line.data) := pyStrip_last
    split at h
    · -- " - " found: the part after the first separator strips non-empty
      rename_i a t hsplit
      simp only [Option.some.injEq] at h
      subst h
      have heq : pyStrip line.data = a ++ ([' ', '-', ' '] ++ t) := pySplitOnce_eq hsplit
      constructor
      · show ¬ pyStrip (String.mk (pyStrip t)).data = []
        have hidem : pyStrip (String.mk (pyStrip t)).data = pyStrip t := pyStrip_idem t
        rw [hidem]
        intro htnil
        rcases ht : t with _ | ⟨t0, ts⟩
        · -- t = []: the stripped line would end in a space
          subst ht
          have : (pyStrip line.data).getLast? = some ' ' := by
            rw [heq, List.getLast?_append]
            rfl
          have := hlast ' ' this
          simp [ws, wsList] at this
        · -- t nonempty but all whitespace: the stripped line would end in whitespace
          subst ht
          obtain ⟨c, hc⟩ := getLast?_isSome_of_ne_nil (l := t0 :: ts) (by simp)
          have hcm : c ∈ t0 :: ts := getLast?_mem hc
          have hcw : ws c = true := pyStrip_nil htnil c hcm
          have : (pyStrip line.data).getLast? = some c := by
            rw [heq, List.getLast?_append, List.getLast?_append, hc]
            rfl
          have := hlast c this
          rw [this] at hcw
          exact Bool.false_ne_true hcw
      · show pyStrip (String.mk (pyStrip t)).data = (String.mk (pyStrip t)).data
        exact pyStrip_idem t
    · -- no separator: the whole (already stripped, non-blank) line is the title
      simp only [Option.some.injEq] at h
      subst h
      constructor
      · show ¬ pyStrip (String.mk (pyStrip line.data)).data = []
        rw [show pyStrip (String.mk (pyStrip line.data)).data = pyStrip (pyStrip line.data)
          from rfl]
        rw [pyStrip_idem]
        exact hclean_ne
      · exact pyStrip_idem _

theorem parse_mem_cases (text : String) (r : TrackRecord)
    (h : r ∈ parse_apple_playlist_text text) :
    (∃ fns tf af row, tabularRow fns tf af row = some r) ∨
      (∃ line, fallbackLine line = some r) := by
  simp only [parse_apple_playlist_text] at h
  split at h
  · simp at h
  · split at h
    · simp at h
    · split at h
      · simp at h
      · split at h
        · simp at h
        · split at h
          · simp at h
          · split at h
            · right
              rw [List.mem_filterMap] at h
              obtain ⟨line, -, hline⟩ := h
              exact ⟨line, hline⟩
            · left
              rw [List.mem_filterMap] at h
              obtain ⟨row, -, hrow⟩ := h
              exact ⟨_, _, _, row, hrow⟩

/-- C5: for every byte input, every TrackRecord the Import Parser emits
has a non-empty title after trimming — neither the tabular path (which
filters blank titles) nor the plain-line fallback (whose split parts are
provably non-blank after stripping, since the line itself was stripped)
ever emits a blank-title record. -/
theorem c5_title_nonblank (raw : List (Fin 256)) (r : TrackRecord)
    (h : r ∈ parse_apple_playlist_text (decode_uploaded_bytes raw)) :
    pyStripS r.title ≠ "" := by
  have hmain : pyStrip r.title.data ≠ [] := by
    rcases parse_mem_cases _ r h with ⟨fns, tf, af, row, hrow⟩ | ⟨line, hline⟩
    · exact (tabularRow_title hrow).1
    · exact (fallbackLine_title hline).1
  intro hcontra
  apply hmain
  have hdata : (pyStripS r.title).data = pyStrip r.title.data := rfl
  rw [hcontra] at hdata
  exact hdata.symm

/-- Witness for C5 on the concrete upload `Name\nYesterday\n` (odd byte
count, so the UTF-16 attempt fails and UTF-8 decodes it). -/
theorem c5_title_nonblank_witness :
    (⟨"Yesterday", ""⟩ : TrackRecord) ∈
        parse_apple_playlist_text (decode_uploaded_bytes
          [78, 97, 109, 101, 10, 89, 101, 115, 116, 101, 114, 100, 97, 121, 10]) ∧
      pyStripS (⟨"Yesterday", ""⟩ : TrackRecord).title ≠ "" :=
  ⟨by decide,
    c5_title_nonblank [78, 97, 109, 101, 10, 89, 101, 115, 116, 101, 114, 100, 97, 121, 10]
      ⟨"Yesterday", ""⟩ (by decide)⟩

end PlexReorder

namespace PlexReorder

/-! ## C3: the csv field-size limit makes the parser raise

The failing input is 262146 bytes of `0x61`: the UTF-16 attempt (the
first codec) succeeds — each little-endian byte pair `61 61` is the
code unit U+6161 — yielding a single 131073-character line whose lone
comma-separated field exceeds `csv.field_size_limit()`, so CPython's
reader raises `_csv.Error` at the `reader.fieldnames` access. -/

/-- The character U+6161, whose little-endian UTF-16 encoding is the
byte `0x61` twice.  It is not whitespace, not a line break, and not a
csv-special or sniffed-delimiter character. -/
def bigChar : Char := Char.ofNat 24929

theorem splitlinesGo_replicate_big :
    ∀ (n : Nat) (cur : List Char),
      splitlinesGo cur (List.replicate n bigChar) =
        if cur.isEmpty ∧ n = 0 then [] else [cur.reverse ++ List.replicate n bigChar] := by
  intro n
  induction n with
  | zero =>
      intro cur
      rcases cur with _ | ⟨c, cs⟩
      · simp [splitlinesGo]
      · simp [splitlinesGo]
  | succ n ih =>
      intro cur
      rw [List.replicate_succ]
      have hstep : splitlinesGo cur (bigChar :: List.replicate n bigChar) =
          splitlinesGo (bigChar :: cur) (List.replicate n bigChar) := by
        simp [splitlinesGo, bigChar, lineBreakList]
      rw [hstep, ih]
      simp [List.append_assoc, List.replicate_succ]

theorem dropWhile_ws_replicate_big (n : Nat) :
    List.dropWhile ws (List.replicate n bigChar) = List.replicate n bigChar := by
  rcases n with _ | n
  · rfl
  · rw [List.replicate_succ, List.dropWhile_cons]
    simp [show ws bigChar = false from by decide]

theorem pyStrip_replicate_big (n : Nat) :
    pyStrip (List.replicate n bigChar) = List.replicate n bigChar := by
  unfold pyStrip
  rw [dropWhile_ws_replicate_big, List.reverse_replicate, dropWhile_ws_replicate_big,
    List.reverse_replicate]

theorem contains_replicate_big (c : Char) (hc : c ≠ bigChar) :
    ∀ n : Nat, (List.replicate n bigChar).contains c = false := by
  intro n
  induction n with
  | zero => rfl
  | succ n ih =>
      rw [List.replicate_succ]
      simp [List.contains, List.elem_cons, hc]

theorem csvGo_inField_comma_big :
    ∀ (n : Nat) (cur : List Char) (fields : List String) (acc : List (List String)),
      csvGo ',' .inField cur fields acc (List.replicate n bigChar) =
        acc ++ [csvEmit fields (cur ++ List.replicate n bigChar)] := by
  intro n
  induction n with
  | zero =>
      intro cur fields acc
      simp [csvGo]
  | succ n ih =>
      intro cur fields acc
      rw [List.replicate_succ]
      have hstep : csvGo ',' .inField cur fields acc (bigChar :: List.replicate n bigChar) =
          csvGo ',' .inField (cur ++ [bigChar]) fields acc (List.replicate n bigChar) := by
        simp [csvGo, bigChar]
      rw [hstep, ih]
      simp [List.append_assoc, List.replicate_succ]

theorem csvRows_replicate_big (n : Nat) :
    csvRows ',' (String.mk (List.replicate (n + 1) bigChar)) =
      [[String.mk (List.replicate (n + 1) bigChar)]] := by
  unfold csvRows
  show csvGo ',' .startRecord [] [] [] (List.replicate (n + 1) bigChar) = _
  rw [List.replicate_succ]
  have hstep : csvGo ',' .startRecord [] [] [] (bigChar :: List.replicate n bigChar) =
      csvGo ',' .inField [bigChar] [] [] (List.replicate n bigChar) := by
    simp [csvGo, bigChar]
  rw [hstep, csvGo_inField_comma_big]
  simp [csvEmit, List.replicate_succ]

theorem utf16Units_pairs : ∀ n : Nat,
    utf16Units false (List.replicate (2 * n) 97) = some (List.replicate n 24929) := by
  intro n
  induction n with
  | zero => rfl
  | succ n ih =>
      have harith : 2 * (n + 1) = (2 * n) + 1 + 1 := by omega
      rw [harith, List.replicate_succ, List.replicate_succ]
      have hstep : utf16Units false (97 :: 97 :: List.replicate (2 * n) 97) =
          (utf16Units false (List.replicate (2 * n) 97)).map
            (fun us => (if false then 256 * 97 + 97 else 97 + 256 * 97) :: us) := rfl
      rw [hstep, ih, List.replicate_succ]
      rfl

theorem utf16Combine_units : ∀ n : Nat,
    utf16Combine (List.replicate n 24929) = some (List.replicate n bigChar) := by
  intro n
  induction n with
  | zero => rfl
  | succ n ih =>
      rw [List.replicate_succ, List.replicate_succ]
      have hstep : utf16Combine (24929 :: List.replicate n 24929) =
          (utf16Combine (List.replicate n 24929)).map (fun cs => Char.ofNat 24929 :: cs) := by
        rw [utf16Combine.eq_def]
        norm_num
      rw [hstep, ih]
      rfl

theorem option_some_orElse {α : Type} (a : α) (f : Unit → Option α) :
    (some a).orElse f = some a := rfl

theorem decode_big_input :
    decode_uploaded_bytes (List.replicate 262146 ((97 : Fin 256))) =
      String.mk (List.replicate 131073 bigChar) := by
  have hbytes : (List.replicate 262146 ((97 : Fin 256))).map Fin.val =
      List.replicate 262146 97 := by
    rw [List.map_replicate]
    rfl
  have h16 : utf16Decode (List.replicate 262146 97) = some (List.replicate 131073 bigChar) := by
    rw [show (262146 : Nat) = 262144 + 1 + 1 from by norm_num, List.replicate_succ,
      List.replicate_succ]
    have hdefault : utf16Decode (97 :: 97 :: List.replicate 262144 97) =
        (utf16Units false (97 :: 97 :: List.replicate 262144 97)).bind utf16Combine := rfl
    rw [hdefault, ← List.replicate_succ, ← List.replicate_succ,
      show (262144 : Nat) + 1 + 1 = 2 * 131073 from by norm_num, utf16Units_pairs,
      Option.some_bind, utf16Combine_units]
  unfold decode_uploaded_bytes decodeChain
  rw [hbytes, h16, option_some_orElse, option_some_orElse, option_some_orElse,
    Option.getD_some]

theorem mk_data (l : List Char) : (String.mk l).data = l := rfl

theorem filter_singleton_of_pos {α : Type} (p : α → Bool) (a : α) (h : p a = true) :
    List.filter p [a] = [a] := by
  rw [List.filter_cons_of_pos h, List.filter_nil]

theorem big_pred :
    (!(pyStrip (String.mk (List.replicate 131073 bigChar)).data).isEmpty) = true := by
  simp only [mk_data, pyStrip_replicate_big]
  decide

theorem big_line_kept :
    (pySplitlines (String.mk (List.replicate 131073 bigChar))).filter
      (fun l => !(pyStrip l.data).isEmpty) = [String.mk (List.replicate 131073 bigChar)] := by
  unfold pySplitlines
  show ((splitlinesGo [] (List.replicate 131073 bigChar)).map String.mk).filter _ = _
  rw [splitlinesGo_replicate_big]
  rw [if_neg (by simp)]
  simp only [List.reverse_nil, List.nil_append, List.map_cons, List.map_nil]
  exact filter_singleton_of_pos _ _ big_pred

theorem big_not_mem_tab : ¬ ('\t' ∈ (String.mk (List.replicate 131073 bigChar)).data) := by
  show ¬ ('\t' ∈ List.replicate 131073 bigChar)
  rw [List.mem_replicate]
  decide

theorem big_not_mem_semi : ¬ (';' ∈ (String.mk (List.replicate 131073 bigChar)).data) := by
  show ¬ (';' ∈ List.replicate 131073 bigChar)
  rw [List.mem_replicate]
  decide

theorem big_rows :
    csvRows ',' (String.mk (List.replicate 131073 bigChar)) =
      [[String.mk (List.replicate 131073 bigChar)]] := by
  have h := csvRows_replicate_big 131072
  rw [show (131072 : Nat) + 1 = 131073 from by norm_num] at h
  exact h

theorem big_over : rowOverLimit [String.mk (List.replicate 131073 bigChar)] = true := by
  show List.any [String.mk (List.replicate 131073 bigChar)] fieldOverLimit = true
  simp only [List.any_cons, List.any_nil, fieldOverLimit, mk_data, List.length_replicate,
    CSV_FIELD_SIZE_LIMIT]
  decide

theorem parse_checked_single_over (raw l : String)
    (hlines : (pySplitlines raw).filter (fun s => !(pyStrip s.data).isEmpty) = [l])
    (htab : ¬ ('\t' ∈ l.data))
    (hsemi : ¬ (';' ∈ l.data))
    (hrows : csvRows ',' raw = [[l]])
    (hover : rowOverLimit [l] = true) :
    parse_apple_playlist_text_checked raw = none := by
  unfold parse_apple_playlist_text_checked
  simp [hlines, htab, hsemi, hrows, hover]

theorem parse_checked_big_input :
    parse_apple_playlist_text_checked (String.mk (List.replicate 131073 bigChar)) = none :=
  parse_checked_single_over _ _ big_line_kept big_not_mem_tab big_not_mem_semi
    big_rows big_over

/-- C3: the import pipeline **can** raise, contrary to the claim.  On
262146 bytes of `0x61` (about 256 KiB, far below the upload size cap)
decoding succeeds — the UTF-16 codec, tried first, turns each byte pair
into U+6161 — but the decoded text is one 131073-character line whose
single comma-sniffed field exceeds CPython's `csv.field_size_limit()`
of 131072, so the `reader.fieldnames` access raises `_csv.Error`, which
`parse_apple_playlist_text` propagates (the upload route's
`try/except` at main.py lines 316–319 catches exactly this and returns
a 400 error, not the empty sequence the claim requires). -/
theorem c3_field_limit_raises :
    decode_uploaded_bytes (List.replicate 262146 ((97 : Fin 256))) =
        String.mk (List.replicate 131073 bigChar) ∧
      parse_apple_playlist_text_checked (String.mk (List.replicate 131073 bigChar)) =
        none :=
  ⟨decode_big_input, parse_checked_big_input⟩

end PlexReorder
